import Mathlib

/-!
Shallow embedding of the dataset-merge tool (merge_datasets.py).

The embedding follows the source closely:
* `mergeNames` models the taxonomy merge loop (lines 104-107);
* `buildRemapTable` models the dict comprehension `new_to_merged` (line 114);
* `planLine` / `planRemapGo` model the dry-run/planning remap loop (lines 150-176),
  recording each drop together with its warning message;
* `applyLine` / `applyRemapGo` model the apply-mode remap re-run (lines 214-227),
  where an unparseable class id raises an uncaught exception (modelled as `none`);
* `splitext`, `candName`, `searchFreeFrom`, `resolveDstName`, `dstLabelName` model
  the collision-avoiding destination naming (lines 135-148);
* `FsState`, `ensureDir`, `planningDirEffects`, `dryRunEffects` model the filesystem
  effects performed before the dry-run early return (lines 121-202);
* `CfgVal`, `dictSet`, `updateMainCfg`, `fallbackWriteCfg` model the data.yaml
  rewrite (lines 230-246).
-/

/-- Taxonomy merge, lines 104-107: start from the main names and append each new
name that is not already present. -/
def mergeNames (mainNames newNames : List String) : List String :=
  newNames.foldl (fun acc n => if n ∈ acc then acc else acc ++ [n]) mainNames

/-- The dict comprehension at line 114:
`new_to_merged = {i: merged_names.index(name) for i, name in enumerate(new_names)}`,
modelled as an association list with integer keys (Python dict keys are ints). -/
def buildRemapTable (mainNames newNames : List String) : List (Int × Int) :=
  (List.range newNames.length).map
    (fun (i : Nat) =>
      ((i : Int), ((mergeNames mainNames newNames).indexOf (newNames.getD i "") : Int)))

/-- Decimal digit value of a character, used to model Python `int(...)`. -/
def digitVal (c : Char) : Option Nat :=
  if '0' ≤ c ∧ c ≤ '9' then some (c.toNat - 48) else none

/-- Accumulating digit scan: fails on the first non-digit character. -/
def digitsGo (a : Nat) : List Char → Option Nat
  | [] => some a
  | c :: r =>
    match digitVal c with
    | some d => digitsGo (a * 10 + d) r
    | none => none

/-- Parse a non-empty all-digit character list as a natural number. -/
def digitsToNat : List Char → Option Nat
  | [] => none
  | c :: r =>
    match digitVal c with
    | some d => digitsGo d r
    | none => none

/-- Model of Python `int(token)` on whitespace-free tokens: optional sign followed
by at least one decimal digit; anything else raises (modelled as `none`). -/
def parseIntPy (s : String) : Option Int :=
  match s.toList with
  | '-' :: r => (digitsToNat r).map (fun n => -(n : Int))
  | '+' :: r => (digitsToNat r).map (fun n => (n : Int))
  | cs => (digitsToNat cs).map (fun n => (n : Int))

/-- Whitespace split, modelling Python `str.split()`: split on runs of whitespace,
producing no empty tokens. -/
def wsSplitGo : List Char → List Char → List (List Char)
  | [], acc => if acc = [] then [] else [acc.reverse]
  | c :: rest, acc =>
    if c.isWhitespace then
      (if acc = [] then wsSplitGo rest [] else acc.reverse :: wsSplitGo rest [])
    else wsSplitGo rest (c :: acc)

/-- Model of `ln.split()` at lines 156 and 220. -/
def splitWs (s : String) : List String :=
  (wsSplitGo s.toList []).map (fun l => String.mk l)

/-- Model of Python `str.strip()`. -/
def stripStr (s : String) : String :=
  String.mk (((s.toList.dropWhile Char.isWhitespace).reverse.dropWhile Char.isWhitespace).reverse)

/-- The line preprocessing `[ln.strip() for ln in f if ln.strip()]` at lines 153 and 217. -/
def stripLines (raws : List String) : List String :=
  (raws.map stripStr).filter (fun l => l ≠ "")

/-- The output line `' '.join([str(new_cid)] + parts[1:])` at lines 174 and 225. -/
def renderLine (cid : Int) (rest : List String) : String :=
  String.intercalate " " (toString cid :: rest)

/-- The class-id remap of lines 165-173: a table hit is substituted; otherwise the
id is kept unchanged if below the merged class count, else the line is unmappable. -/
def remapClassId (table : List (Int × Int)) (mergedLen : Nat) (cid : Int) : Option Int :=
  match table.lookup cid with
  | some v => some v
  | none => if cid < (mergedLen : Int) then some cid else none

/-- Outcome of processing one stripped label line during planning: either an output
line or a drop accompanied by its warning message. -/
inductive LineResult where
  | keep (line : String)
  | drop (warning : String)
deriving DecidableEq

/-- One iteration of the planning remap loop, lines 155-174. -/
def planLine (table : List (Int × Int)) (mergedLen : Nat) (ln : String) : LineResult :=
  let parts := splitWs ln
  if parts.length < 5 then LineResult.drop ("Warning: malformed label: " ++ ln)
  else
    match parseIntPy (parts.headD "") with
    | none => LineResult.drop ("Warning: cannot parse class id: " ++ ln)
    | some cid =>
      match remapClassId table mergedLen cid with
      | some newCid => LineResult.keep (renderLine newCid parts.tail)
      | none => LineResult.drop ("Warning: cannot map class id " ++ toString cid)

/-- The planning remap loop over stripped lines: collects output lines and warnings
in encounter order. -/
def planRemapGo (table : List (Int × Int)) (mergedLen : Nat) :
    List String → List String × List String
  | [] => ([], [])
  | ln :: rest =>
    match planLine table mergedLen ln with
    | LineResult.keep s =>
      (s :: (planRemapGo table mergedLen rest).1, (planRemapGo table mergedLen rest).2)
    | LineResult.drop w =>
      ((planRemapGo table mergedLen rest).1, w :: (planRemapGo table mergedLen rest).2)

/-- Planning-mode remap of a raw label file, lines 150-176: strip and drop blank
lines, then remap each line, returning (output lines, warnings). -/
def planRemapLines (table : List (Int × Int)) (mergedLen : Nat) (raws : List String) :
    List String × List String :=
  planRemapGo table mergedLen (stripLines raws)

/-- One iteration of the apply-mode remap re-run, lines 219-225: a short line is
skipped silently (`some none`), an unparseable class id raises (`none`), and an
id absent from the table is kept unchanged with no bound check
(`new_to_merged.get(cid, cid)`). -/
def applyLine (table : List (Int × Int)) (ln : String) : Option (Option String) :=
  let parts := splitWs ln
  if parts.length < 5 then some none
  else
    match parseIntPy (parts.headD "") with
    | none => none
    | some cid => some (some (renderLine ((table.lookup cid).getD cid) parts.tail))

/-- The apply-mode remap loop over stripped lines; `none` means the uncaught
exception aborted the rewrite. -/
def applyRemapGo (table : List (Int × Int)) : List String → Option (List String)
  | [] => some []
  | ln :: rest =>
    match applyLine table ln with
    | none => none
    | some none => applyRemapGo table rest
    | some (some s) => (applyRemapGo table rest).map (fun l => s :: l)

/-- Apply-mode remap of a raw label file, lines 214-225. -/
def applyRemapLines (table : List (Int × Int)) (raws : List String) : Option (List String) :=
  applyRemapGo table (stripLines raws)

/-- Split a character list at its last dot: `some (stem, ext)` where `ext` starts
with the dot, or `none` when no dot occurs. -/
def splitAtLastDot : List Char → Option (List Char × List Char)
  | [] => none
  | c :: rest =>
    match splitAtLastDot rest with
    | some (a, b) => some (c :: a, b)
    | none => if c = '.' then some ([], c :: rest) else none

/-- Model of `os.path.splitext` (line 135): split at the last dot, except that a
run of leading dots never starts an extension. -/
def splitext (s : String) : String × String :=
  let cs := s.toList
  let lead := cs.takeWhile (fun c => c = '.')
  let rest := cs.dropWhile (fun c => c = '.')
  match splitAtLastDot rest with
  | some (a, b) => (String.mk (lead ++ a), String.mk b)
  | none => (s, "")

/-- Candidate destination names tried by lines 136-144: `new_` plus the filename
first, then `new_<stem>_<k><ext>` for `k = 1, 2, ...`. -/
def candName (imgName : String) (k : Nat) : String :=
  if k = 0 then "new_" ++ imgName
  else "new_" ++ (splitext imgName).1 ++ "_" ++ toString k ++ (splitext imgName).2

/-- The collision-resolution while loop of lines 140-144: starting from candidate
`k`, return the first index whose candidate name is not among the existing files.
The fuel bound only models termination; the loop body is the source's. -/
def searchFreeFrom (existing : List String) (imgName : String) : Nat → Nat → Option Nat
  | 0, _ => none
  | fuel + 1, k =>
    if candName imgName k ∈ existing then searchFreeFrom existing imgName fuel (k + 1)
    else some k

/-- Resolved destination image name for one incoming file (lines 136-144), given
the file names existing in the destination directory. -/
def resolveDstName (existing : List String) (imgName : String) : Option String :=
  (searchFreeFrom existing imgName (existing.length + 2) 0).map (candName imgName)

/-- Destination label name, line 148: the resolved image name's stem plus `.txt`. -/
def dstLabelName (dstImgName : String) : String :=
  (splitext dstImgName).1 ++ ".txt"

/-- Destinations planned for a list of incoming image names within one split.
During planning no file is created, so every resolution sees the same existing
files (lines 133-144 inside the dry-run-safe planning loop). -/
def planDestinations (existing : List String) (imgNames : List String) : List (Option String) :=
  imgNames.map (resolveDstName existing)

/-- Filesystem mutations the tool can perform. -/
inductive FsEffect where
  | mkdir (d : String)
  | copyFile (src dst : String)
  | writeFile (path : String)
deriving DecidableEq

/-- Directories and files existing under the workspace root, named by their
root-relative paths. -/
structure FsState where
  dirs : List String
  files : List String
deriving DecidableEq

/-- Model of `ensure_dir` (lines 80-82): create the directory unless present. -/
def ensureDir (st : FsState) (d : String) : FsState × List FsEffect :=
  if d ∈ st.dirs then (st, [])
  else ({ st with dirs := st.dirs ++ [d] }, [FsEffect.mkdir d])

/-- The three recognized splits, line 121. -/
def subsetNames : List String := ["train", "valid", "test"]

/-- One split of the planning loop (lines 121-131): when the incoming images
directory of the split exists, ensure the destination images and labels
directories exist, accumulating the resulting effects. -/
def planningStep (acc : FsState × List FsEffect) (sub : String) : FsState × List FsEffect :=
  if ("new/" ++ sub ++ "/images") ∈ acc.1.dirs then
    ((ensureDir (ensureDir acc.1 (sub ++ "/images")).1 (sub ++ "/labels")).1,
      acc.2 ++ (ensureDir acc.1 (sub ++ "/images")).2 ++
        (ensureDir (ensureDir acc.1 (sub ++ "/images")).1 (sub ++ "/labels")).2)
  else acc

/-- The directory mutations of the planning loop over the three splits. All
further planning work (listing, resolving, label reading) only reads. -/
def planningDirEffects (st : FsState) : FsState × List FsEffect :=
  subsetNames.foldl planningStep (st, [])

/-- Filesystem effects of a dry run (lines 85-202): after the structural
preconditions pass, planning runs and the function returns at line 202 before any
copy or write; so the effects are exactly the planning directory creations. -/
def dryRunEffects (st : FsState) : List FsEffect :=
  if "data.yaml" ∈ st.files ∧ "new" ∈ st.dirs then (planningDirEffects st).2 else []

/-- Values stored in the data.yaml mapping. -/
inductive CfgVal where
  | str (s : String)
  | nat (n : Nat)
  | names (l : List String)
deriving DecidableEq

/-- Python dict assignment `d[k] = v` on an insertion-ordered mapping: replace the
value in place when the key is present (keys are unique in a dict), else append
the pair at the end. -/
def dictSet : List (String × CfgVal) → String → CfgVal → List (String × CfgVal)
  | [], k, v => [(k, v)]
  | (a, b) :: rest, k, v =>
    if a = k then (k, v) :: rest else (a, b) :: dictSet rest k v

/-- The yaml-library rewrite path, lines 230-236: copy the loaded mapping, set
`nc` and `names`, and dump every key in order. -/
def updateMainCfg (cfg : List (String × CfgVal)) (mergedNames : List String) :
    List (String × CfgVal) :=
  dictSet (dictSet cfg "nc" (CfgVal.nat mergedNames.length)) "names" (CfgVal.names mergedNames)

/-- The fallback writer, lines 238-246: write `train`, `val`, `test` when present
in the loaded mapping, then `nc` and `names`; no other key is written. -/
def fallbackWriteCfg (cfg : List (String × CfgVal)) (mergedNames : List String) :
    List (String × CfgVal) :=
  (["train", "val", "test"].filterMap (fun k => (cfg.lookup k).map (fun v => (k, v))))
    ++ [("nc", CfgVal.nat mergedNames.length), ("names", CfgVal.names mergedNames)]

example : mergeNames ["cat", "dog"] ["dog", "bird"] = ["cat", "dog", "bird"] := by decide

theorem mergeNames_cons (acc : List String) (n : String) (rest : List String) :
    mergeNames acc (n :: rest) = mergeNames (if n ∈ acc then acc else acc ++ [n]) rest := rfl

theorem mergeNames_nil (acc : List String) : mergeNames acc [] = acc := rfl

theorem mergeNames_exists_added :
    ∀ (new acc : List String), ∃ added, mergeNames acc new = acc ++ added ∧
      added.Sublist new ∧ added.Nodup ∧ ∀ x ∈ added, x ∉ acc
  | [], acc => ⟨[], by simp [mergeNames], List.nil_sublist _, List.nodup_nil, by simp⟩
  | n :: rest, acc => by
    by_cases h : n ∈ acc
    · obtain ⟨added, h1, h2, h3, h4⟩ := mergeNames_exists_added rest acc
      refine ⟨added, ?_, h2.cons n, h3, h4⟩
      rw [mergeNames_cons, if_pos h]
      exact h1
    · obtain ⟨added, h1, h2, h3, h4⟩ := mergeNames_exists_added rest (acc ++ [n])
      refine ⟨n :: added, ?_, h2.cons₂ n, ?_, ?_⟩
      · rw [mergeNames_cons, if_neg h, h1]
        simp
      · refine List.nodup_cons.mpr ⟨fun hn => ?_, h3⟩
        exact (h4 n hn) (by simp)
      · intro x hx
        rcases List.mem_cons.mp hx with rfl | hx
        · exact h
        · intro hxa
          exact (h4 x hx) (List.mem_append_left _ hxa)

theorem mem_mergeNames_left (new acc : List String) {x : String} (hx : x ∈ acc) :
    x ∈ mergeNames acc new := by
  obtain ⟨added, h1, -, -, -⟩ := mergeNames_exists_added new acc
  rw [h1]
  exact List.mem_append_left _ hx

theorem mem_mergeNames_right :
    ∀ (new acc : List String), ∀ x ∈ new, x ∈ mergeNames acc new
  | n :: rest, acc, x, hx => by
    rw [mergeNames_cons]
    by_cases h : n ∈ acc
    · rw [if_pos h]
      rcases List.mem_cons.mp hx with rfl | hx
      · exact mem_mergeNames_left rest acc h
      · exact mem_mergeNames_right rest acc x hx
    · rw [if_neg h]
      rcases List.mem_cons.mp hx with rfl | hx
      · exact mem_mergeNames_left rest (acc ++ [x]) (by simp)
      · exact mem_mergeNames_right rest (acc ++ [n]) x hx

theorem mergeNames_length :
    ∀ (new acc : List String),
      (mergeNames acc new).length = acc.length + (new.toFinset \ acc.toFinset).card
  | [], acc => by simp [mergeNames]
  | n :: rest, acc => by
    rw [mergeNames_cons]
    by_cases h : n ∈ acc
    · rw [if_pos h, mergeNames_length rest acc, List.toFinset_cons,
        Finset.insert_sdiff_of_mem _ (List.mem_toFinset.mpr h)]
    · rw [if_neg h, mergeNames_length rest (acc ++ [n]), List.toFinset_cons]
      have hacc : (acc ++ [n]).toFinset = insert n acc.toFinset := by
        ext y
        simp [or_comm]
      have hn : n ∉ acc.toFinset := fun hmem => h (List.mem_toFinset.mp hmem)
      rw [hacc, Finset.insert_sdiff_of_not_mem _ hn, Finset.sdiff_insert]
      by_cases hr : n ∈ rest.toFinset \ acc.toFinset
      · rw [Finset.card_insert_of_mem hr, Finset.card_erase_of_mem hr]
        have hpos : 0 < (rest.toFinset \ acc.toFinset).card :=
          Finset.card_pos.mpr ⟨n, hr⟩
        simp only [List.length_append, List.length_singleton]
        omega
      · rw [Finset.card_insert_of_not_mem hr, Finset.erase_eq_of_not_mem hr]
        simp only [List.length_append, List.length_singleton]
        omega

theorem mergeNames_of_disjoint :
    ∀ (new acc : List String), new.Nodup → (∀ x ∈ new, x ∉ acc) →
      mergeNames acc new = acc ++ new
  | [], acc, _, _ => by simp [mergeNames]
  | n :: rest, acc, hnd, hdisj => by
    have hn : n ∉ acc := hdisj n (List.mem_cons_self n rest)
    rw [mergeNames_cons, if_neg hn,
      mergeNames_of_disjoint rest (acc ++ [n]) (List.nodup_cons.mp hnd).2 ?_]
    · simp
    · intro x hx hmem
      rcases List.mem_append.mp hmem with hmem | hmem
      · exact hdisj x (List.mem_cons_of_mem n hx) hmem
      · rcases List.mem_singleton.mp hmem with rfl
        exact (List.nodup_cons.mp hnd).1 hx

/-- C4: the merged taxonomy is the main names followed, in order, by the new
names not already present (case-sensitive exact equality, deduplicated); its
length is `main.length` plus the number of distinct new names absent from main;
every main name keeps its original index; and empty inputs give an identity
merge. -/
theorem merge_names_spec (main new : List String) :
    (∃ added, mergeNames main new = main ++ added ∧ added.Sublist new ∧
        added.Nodup ∧ ∀ x ∈ added, x ∉ main) ∧
    (mergeNames main new).length = main.length + (new.toFinset \ main.toFinset).card ∧
    (∀ x ∈ main, (mergeNames main new).indexOf x = main.indexOf x) ∧
    mergeNames main [] = main ∧
    (new.Nodup → mergeNames [] new = new) := by
  refine ⟨mergeNames_exists_added new main, mergeNames_length new main, ?_,
    mergeNames_nil main, ?_⟩
  · intro x hx
    obtain ⟨added, h1, -, -, -⟩ := mergeNames_exists_added new main
    rw [h1]
    exact List.indexOf_append_of_mem hx
  · intro hnd
    rw [mergeNames_of_disjoint new [] hnd (by simp)]
    simp

/-- Witness for C4 at concrete inputs: the index of a shared name is preserved,
and merging into an empty main taxonomy copies a duplicate-free new taxonomy. -/
theorem merge_names_spec_witness :
    (mergeNames ["cat", "dog"] ["dog", "bird"]).indexOf "dog" =
      (["cat", "dog"] : List String).indexOf "dog" ∧
    mergeNames [] ["dog", "bird"] = ["dog", "bird"] :=
  ⟨(merge_names_spec ["cat", "dog"] ["dog", "bird"]).2.2.1 "dog" (by decide),
   (merge_names_spec [] ["dog", "bird"]).2.2.2.2 (by decide)⟩

example : splitext "img.jpg" = ("img", ".jpg") := by decide

example : splitext "img_1.jpg" = ("img_1", ".jpg") := by decide

example : resolveDstName ["new_img.jpg"] "img.jpg" = some "new_img_1.jpg" := by decide

example : resolveDstName ["new_img.jpg"] "img_1.jpg" = some "new_img_1.jpg" := by decide

example : resolveDstName [] "img.jpg" = some "new_img.jpg" := by decide

example : dstLabelName "new_img_1.jpg" = "new_img_1.txt" := by decide

example : dryRunEffects ⟨["new", "new/train/images"], ["data.yaml"]⟩ =
    [FsEffect.mkdir "train/images", FsEffect.mkdir "train/labels"] := by decide

theorem lookup_map_natKeys (f : Nat → Int) :
    ∀ (l : List Nat) (i : Nat), i ∈ l →
      (l.map (fun (j : Nat) => ((j : Int), f j))).lookup (i : Int) = some (f i)
  | j :: rest, i, hi => by
    by_cases h : i = j
    · subst h
      simp [List.lookup]
    · have hb : ((i : Int) == (j : Int)) = false := by
        simp only [beq_eq_false_iff_ne, ne_eq, Nat.cast_inj]
        exact h
      have hi' : i ∈ rest := by
        rcases List.mem_cons.mp hi with rfl | hi'
        · exact absurd rfl h
        · exact hi'
      simpa [List.lookup, hb] using lookup_map_natKeys f rest i hi'

theorem lookup_map_natKeys_inv (f : Nat → Int) :
    ∀ (l : List Nat) (k v : Int),
      (l.map (fun (j : Nat) => ((j : Int), f j))).lookup k = some v → ∃ j ∈ l, v = f j
  | [], k, v, h => by simp [List.lookup] at h
  | j :: rest, k, v, h => by
    by_cases hb : k == (j : Int)
    · simp only [List.map_cons, List.lookup, hb, Option.some.injEq] at h
      exact ⟨j, List.mem_cons_self j rest, h.symm⟩
    · rw [Bool.not_eq_true] at hb
      simp only [List.map_cons, List.lookup, hb] at h
      obtain ⟨j', hj', hv⟩ := lookup_map_natKeys_inv f rest k v h
      exact ⟨j', List.mem_cons_of_mem j hj', hv⟩

theorem buildRemapTable_lookup (main new : List String) (i : Nat) (h : i < new.length) :
    (buildRemapTable main new).lookup (i : Int) =
      some (((mergeNames main new).indexOf (new.get ⟨i, h⟩) : Int)) := by
  have := lookup_map_natKeys
    (fun j => ((mergeNames main new).indexOf (new.getD j "") : Int))
    (List.range new.length) i (List.mem_range.mpr h)
  rw [buildRemapTable, this]
  simp only [List.getD_eq_getElem new "" h, List.get_eq_getElem]

/-- C6: the remap table is total over the incoming index range and maps index `i`
to the merged index of the i-th new name; concretely, for main taxonomy
[cat, dog] and incoming [dog, bird] the merged taxonomy is [cat, dog, bird]
and the incoming line with class 0 remaps to class 1. -/
theorem remap_table_total (main new : List String) (i : Nat) (h : i < new.length) :
    (buildRemapTable main new).lookup (i : Int) =
      some (((mergeNames main new).indexOf (new.get ⟨i, h⟩) : Int)) ∧
    mergeNames ["cat", "dog"] ["dog", "bird"] = ["cat", "dog", "bird"] ∧
    planRemapLines (buildRemapTable ["cat", "dog"] ["dog", "bird"]) 3
      ["0 0.5 0.5 0.1 0.1"] = (["1 0.5 0.5 0.1 0.1"], []) :=
  ⟨buildRemapTable_lookup main new i h, by decide, by decide⟩

/-- Witness for C6: the table entry for incoming index 0 (name dog) is the merged
index of dog. -/
theorem remap_table_total_witness :
    (buildRemapTable ["cat", "dog"] ["dog", "bird"]).lookup ((0 : Nat) : Int) =
      some (((mergeNames ["cat", "dog"] ["dog", "bird"]).indexOf
        ((["dog", "bird"] : List String).get ⟨0, by decide⟩) : Int)) :=
  (remap_table_total ["cat", "dog"] ["dog", "bird"] 0 (by decide)).1

/-- C10: when the incoming descriptor is absent the tool proceeds with an empty
incoming name list, so the merged taxonomy equals the main one, the remap table
is empty, and every label id falls to the fallback rule: kept unchanged iff
below the main class count, otherwise dropped (with a warning in planning). -/
theorem missing_new_yaml_fallback (main : List String) (cid : Int) :
    mergeNames main [] = main ∧
    buildRemapTable main [] = [] ∧
    remapClassId (buildRemapTable main []) (mergeNames main []).length cid =
      (if cid < (main.length : Int) then some cid else none) := by
  refine ⟨rfl, rfl, ?_⟩
  simp [remapClassId, List.lookup, mergeNames_nil]

theorem planLine_keep_inv (table : List (Int × Int)) (mergedLen : Nat) (ln s : String)
    (h : planLine table mergedLen ln = LineResult.keep s) :
    ∃ cid newCid, parseIntPy ((splitWs ln).headD "") = some cid ∧
      remapClassId table mergedLen cid = some newCid ∧
      s = renderLine newCid (splitWs ln).tail := by
  simp only [planLine] at h
  split at h
  · exact absurd h (by simp)
  · split at h
    · exact absurd h (by simp)
    · rename_i cid hp
      split at h
      · rename_i newCid hr
        simp only [LineResult.keep.injEq] at h
        exact ⟨cid, newCid, hp, hr, h.symm⟩
      · exact absurd h (by simp)

theorem remapClassId_bounded (table : List (Int × Int)) (mergedLen : Nat) (cid v : Int)
    (htab : ∀ k w, table.lookup k = some w → w < (mergedLen : Int))
    (h : remapClassId table mergedLen cid = some v) : v < (mergedLen : Int) := by
  unfold remapClassId at h
  cases hl : table.lookup cid with
  | some w =>
    rw [hl] at h
    cases h
    exact htab cid v hl
  | none =>
    rw [hl] at h
    by_cases hlt : cid < (mergedLen : Int)
    · rw [if_pos hlt] at h
      cases h
      exact hlt
    · rw [if_neg hlt] at h
      exact absurd h (by simp)

theorem buildRemapTable_values_bounded (main new : List String) (k v : Int)
    (h : (buildRemapTable main new).lookup k = some v) :
    0 ≤ v ∧ v < ((mergeNames main new).length : Int) := by
  obtain ⟨j, hj, hv⟩ := lookup_map_natKeys_inv
    (fun j => ((mergeNames main new).indexOf (new.getD j "") : Int))
    (List.range new.length) k v h
  subst hv
  refine ⟨Int.natCast_nonneg _, ?_⟩
  have hjlt : j < new.length := List.mem_range.mp hj
  have hmem : new.getD j "" ∈ mergeNames main new := by
    apply mem_mergeNames_right
    rw [List.getD_eq_getElem new "" hjlt]
    exact List.getElem_mem hjlt
  exact_mod_cast List.indexOf_lt_length.mpr hmem

theorem planRemapGo_mem_keep (table : List (Int × Int)) (mergedLen : Nat) :
    ∀ (lines : List String) (s : String), s ∈ (planRemapGo table mergedLen lines).1 →
      ∃ ln, planLine table mergedLen ln = LineResult.keep s
  | [], s, h => absurd h (by simp [planRemapGo])
  | ln :: rest, s, h => by
    rw [planRemapGo] at h
    cases hpl : planLine table mergedLen ln with
    | keep t =>
      rw [hpl] at h
      rcases List.mem_cons.mp h with rfl | h
      · exact ⟨ln, hpl⟩
      · exact planRemapGo_mem_keep table mergedLen rest s h
    | drop w =>
      rw [hpl] at h
      exact planRemapGo_mem_keep table mergedLen rest s h

/-- C3 amended: during planning every output line is a rendering of a class id
strictly below the merged class count (ids substituted from the remap table lie
in [0, merged count); an id absent from the table is kept only under the upper
bound, with no lower bound, so negative ids pass through unchanged). -/
theorem plan_ids_bounded :
    (∀ (main new : List String) (raws : List String) (s : String),
        s ∈ (planRemapLines (buildRemapTable main new)
          (mergeNames main new).length raws).1 →
        ∃ cid rest, s = renderLine cid rest ∧
          cid < ((mergeNames main new).length : Int)) ∧
    (∀ (main new : List String) (k v : Int),
        (buildRemapTable main new).lookup k = some v →
        0 ≤ v ∧ v < ((mergeNames main new).length : Int)) := by
  constructor
  · intro main new raws s hs
    obtain ⟨ln, hk⟩ := planRemapGo_mem_keep _ _ (stripLines raws) s hs
    obtain ⟨cid, newCid, -, hr, rfl⟩ := planLine_keep_inv _ _ _ _ hk
    refine ⟨newCid, (splitWs ln).tail, rfl, ?_⟩
    exact remapClassId_bounded _ _ _ _
      (fun k w hw => (buildRemapTable_values_bounded main new k w hw).2) hr
  · exact buildRemapTable_values_bounded

/-- Witness for C3 amended at the scenario input: the single planned output line
renders a class id below the merged class count 3. -/
theorem plan_ids_bounded_witness :
    ∃ cid rest, "1 0.5 0.5 0.1 0.1" = renderLine cid rest ∧
      cid < ((mergeNames ["cat", "dog"] ["dog", "bird"]).length : Int) :=
  plan_ids_bounded.1 ["cat", "dog"] ["dog", "bird"] ["0 0.5 0.5 0.1 0.1"]
    "1 0.5 0.5 0.1 0.1" (by decide)

/-- C3 counterexample: the planning remap emits the line with class id -1
unchanged (empty warning list), because the fallback bound check is only an
upper bound; -1 does not lie in [0, 1), refuting the stated interval invariant. -/
theorem plan_emits_negative_id :
    planRemapLines (buildRemapTable ["cat"] []) 1 ["-1 0.5 0.5 0.1 0.1"] =
      (["-1 0.5 0.5 0.1 0.1"], []) ∧
    parseIntPy "-1" = some (-1) ∧ ¬ (0 ≤ (-1 : Int)) :=
  ⟨by decide, by decide, by decide⟩

/-- C2 failing-input evaluation: on the label line with class id 7, a main
taxonomy of one class and no incoming descriptor, planning drops the line with a
warning while the apply-mode re-run writes it unchanged, so the written lines
differ from the planned lines. -/
theorem apply_remap_diverges_from_plan :
    planRemapLines (buildRemapTable ["cat"] []) 1 ["7 0.5 0.5 0.1 0.1"] =
      ([], ["Warning: cannot map class id 7"]) ∧
    applyRemapLines (buildRemapTable ["cat"] []) ["7 0.5 0.5 0.1 0.1"] =
      some ["7 0.5 0.5 0.1 0.1"] ∧
    some (planRemapLines (buildRemapTable ["cat"] []) 1 ["7 0.5 0.5 0.1 0.1"]).1 ≠
      applyRemapLines (buildRemapTable ["cat"] []) ["7 0.5 0.5 0.1 0.1"] :=
  ⟨by decide, by decide, by decide⟩

/-- C8 failing-input evaluation: in apply mode an unparseable class id aborts the
rewrite (uncaught exception, modelled as none) and a short line is skipped with
no message, while planning handles both lines by dropping them with warnings. -/
theorem apply_remap_silent_and_aborts :
    applyRemapLines [] ["abc 0.5 0.5 0.1 0.1"] = none ∧
    planRemapLines [] 1 ["abc 0.5 0.5 0.1 0.1"] =
      ([], ["Warning: cannot parse class id: abc 0.5 0.5 0.1 0.1"]) ∧
    applyRemapLines [] ["1 2 3"] = some [] ∧
    planRemapLines [] 1 ["1 2 3"] = ([], ["Warning: malformed label: 1 2 3"]) :=
  ⟨by decide, by decide, by decide, by decide⟩

theorem searchFreeFrom_spec :
    ∀ (fuel k r : Nat) (existing : List String) (imgName : String),
      searchFreeFrom existing imgName fuel k = some r →
      candName imgName r ∉ existing ∧ k ≤ r ∧
        ∀ j, k ≤ j → j < r → candName imgName j ∈ existing
  | 0, k, r, existing, imgName, h => by simp [searchFreeFrom] at h
  | fuel + 1, k, r, existing, imgName, h => by
    rw [searchFreeFrom] at h
    by_cases hc : candName imgName k ∈ existing
    · rw [if_pos hc] at h
      obtain ⟨h1, h2, h3⟩ := searchFreeFrom_spec fuel (k + 1) r existing imgName h
      refine ⟨h1, by omega, fun j hj1 hj2 => ?_⟩
      by_cases hjk : j = k
      · subst hjk
        exact hc
      · exact h3 j (by omega) hj2
    · rw [if_neg hc] at h
      cases h
      exact ⟨hc, le_refl k, fun j hj1 hj2 => absurd (lt_of_le_of_lt hj1 hj2) (lt_irrefl k)⟩

theorem toDigitsCore_append (b : Nat) :
    ∀ (f n : Nat) (l : List Char),
      Nat.toDigitsCore b f n l = Nat.toDigitsCore b f n [] ++ l
  | 0, n, l => rfl
  | f + 1, n, l => by
    simp only [Nat.toDigitsCore]
    by_cases h : n / b = 0
    · simp [h]
    · rw [if_neg h, if_neg h,
        toDigitsCore_append b f (n / b) (Nat.digitChar (n % b) :: l),
        toDigitsCore_append b f (n / b) [Nat.digitChar (n % b)]]
      simp

theorem toDigitsCore_fuel_irrel (b : Nat) (hb : 2 ≤ b) :
    ∀ (f g n : Nat) (l : List Char), n < f → n < g →
      Nat.toDigitsCore b f n l = Nat.toDigitsCore b g n l
  | 0, _, n, _, hf, _ => absurd hf (Nat.not_lt_zero n)
  | _ + 1, 0, n, _, _, hg => absurd hg (Nat.not_lt_zero n)
  | f + 1, g + 1, n, l, hf, hg => by
    simp only [Nat.toDigitsCore]
    by_cases h : n / b = 0
    · simp [h]
    · rw [if_neg h, if_neg h]
      have hn : 0 < n := by
        rcases Nat.eq_zero_or_pos n with rfl | hn
        · exact absurd (Nat.zero_div b) h
        · exact hn
      have hlt : n / b < n := Nat.div_lt_self hn (by omega)
      exact toDigitsCore_fuel_irrel b hb f g (n / b) _ (by omega) (by omega)

theorem toDigits_small (n : Nat) (h : n / 10 = 0) :
    Nat.toDigits 10 n = [Nat.digitChar n] := by
  rw [Nat.toDigits]
  simp only [Nat.toDigitsCore]
  rw [if_pos h]
  have : n % 10 = n := by omega
  rw [this]

theorem toDigits_step (n : Nat) (h : n / 10 ≠ 0) :
    Nat.toDigits 10 n = Nat.toDigits 10 (n / 10) ++ [Nat.digitChar (n % 10)] := by
  have hn : 0 < n := by
    rcases Nat.eq_zero_or_pos n with rfl | hn
    · exact absurd (Nat.zero_div 10) h
    · exact hn
  have hlt : n / 10 < n := Nat.div_lt_self hn (by omega)
  have key : Nat.toDigits 10 n = Nat.toDigitsCore 10 n (n / 10) [Nat.digitChar (n % 10)] := by
    rw [Nat.toDigits]
    simp only [Nat.toDigitsCore]
    rw [if_neg h]
  rw [key, toDigitsCore_append 10 n (n / 10) [Nat.digitChar (n % 10)],
    toDigitsCore_fuel_irrel 10 (by omega) n (n / 10 + 1) (n / 10) [] (by omega) (by omega),
    Nat.toDigits]

theorem digitVal_digitChar (m : Nat) (h : m < 10) :
    digitVal (Nat.digitChar m) = some m := by
  interval_cases m <;> decide

theorem digitsGo_cons (a : Nat) (c : Char) (r : List Char) (d : Nat)
    (h : digitVal c = some d) : digitsGo a (c :: r) = digitsGo (a * 10 + d) r := by
  simp [digitsGo, h]

theorem digitsToNat_cons (c : Char) (t : List Char) (d : Nat)
    (h : digitVal c = some d) : digitsToNat (c :: t) = digitsGo d t := by
  simp [digitsToNat, h]

theorem digitsGo_append :
    ∀ (xs : List Char) (a v : Nat), digitsGo a xs = some v →
      ∀ (ys : List Char), digitsGo a (xs ++ ys) = digitsGo v ys
  | [], a, v, h, ys => by
    simp only [digitsGo, Option.some.injEq] at h
    subst h
    rfl
  | c :: xs, a, v, h, ys => by
    cases hv : digitVal c with
    | none => rw [digitsGo, hv] at h; exact absurd h (by simp)
    | some d =>
      rw [digitsGo_cons a c xs d hv] at h
      rw [List.cons_append, digitsGo_cons a c (xs ++ ys) d hv]
      exact digitsGo_append xs (a * 10 + d) v h ys

theorem digitsToNat_append (xs ys : List Char) (v : Nat) (h : digitsToNat xs = some v) :
    digitsToNat (xs ++ ys) = digitsGo v ys := by
  cases xs with
  | nil => exact absurd h (by simp [digitsToNat])
  | cons c t =>
    cases hv : digitVal c with
    | none => rw [digitsToNat, hv] at h; exact absurd h (by simp)
    | some d =>
      rw [digitsToNat_cons c t d hv] at h
      rw [List.cons_append, digitsToNat_cons c (t ++ ys) d hv]
      exact digitsGo_append t d v h ys

theorem digitsToNat_toDigits : ∀ (n : Nat), digitsToNat (Nat.toDigits 10 n) = some n
  | n => by
    by_cases h : n / 10 = 0
    · have h10 : n < 10 := by omega
      rw [toDigits_small n h, digitsToNat_cons _ _ n (digitVal_digitChar n h10)]
      rfl
    · have hpos : 0 < n := by
        rcases Nat.eq_zero_or_pos n with rfl | hn
        · exact absurd (Nat.zero_div 10) h
        · exact hn
      have hlt : n / 10 < n := Nat.div_lt_self hpos (by omega)
      have IH := digitsToNat_toDigits (n / 10)
      rw [toDigits_step n h, digitsToNat_append _ _ _ IH,
        digitsGo_cons _ _ _ _ (digitVal_digitChar (n % 10) (by omega))]
      simp only [digitsGo, Option.some.injEq]
      omega
  termination_by n => n

theorem natRepr_data_injective (m n : Nat)
    (h : (Nat.repr m).data = (Nat.repr n).data) : m = n := by
  have hd : Nat.toDigits 10 m = Nat.toDigits 10 n := h
  have hm := digitsToNat_toDigits m
  rw [hd, digitsToNat_toDigits n] at hm
  exact (Option.some.injEq _ _).mp hm.symm

theorem splitAtLastDot_append :
    ∀ (l a b : List Char), splitAtLastDot l = some (a, b) → a ++ b = l
  | [], a, b, h => by simp [splitAtLastDot] at h
  | c :: rest, a, b, h => by
    cases hs : splitAtLastDot rest with
    | some p =>
      obtain ⟨a2, b2⟩ := p
      have hh : splitAtLastDot (c :: rest) = some (c :: a2, b2) := by
        rw [splitAtLastDot, hs]
      rw [hh] at h
      cases h
      rw [List.cons_append, splitAtLastDot_append rest _ _ hs]
    | none =>
      have hh : splitAtLastDot (c :: rest) =
          (if c = '.' then some ([], c :: rest) else none) := by
        rw [splitAtLastDot, hs]
      rw [hh] at h
      by_cases hc : c = '.'
      · rw [if_pos hc] at h
        cases h
        rfl
      · rw [if_neg hc] at h
        cases h

theorem splitext_append (s : String) : (splitext s).1 ++ (splitext s).2 = s := by
  cases hs : splitAtLastDot (s.toList.dropWhile (fun c => c = '.')) with
  | none =>
    have hh : splitext s = (s, "") := by
      simp only [splitext]
      rw [hs]
    rw [hh]
    show String.mk (s.data ++ []) = s
    rw [List.append_nil]
  | some p =>
    obtain ⟨a, b⟩ := p
    have hh : splitext s =
        (String.mk (s.toList.takeWhile (fun c => c = '.') ++ a), String.mk b) := by
      simp only [splitext]
      rw [hs]
    rw [hh]
    have hab := splitAtLastDot_append _ a b hs
    show String.mk ((s.toList.takeWhile (fun c => c = '.') ++ a) ++ b) = s
    rw [List.append_assoc, hab, List.takeWhile_append_dropWhile]
    rfl

theorem repr_length_pos (k : Nat) : 0 < (Nat.repr k).length := by
  show 0 < (Nat.toDigits 10 k).length
  by_cases h : k / 10 = 0
  · rw [toDigits_small k h]
    simp
  · rw [toDigits_step k h]
    simp

theorem candName_injective (imgName : String) :
    ∀ (j k : Nat), candName imgName j = candName imgName k → j = k := by
  have hlen : imgName.length = (splitext imgName).1.length + (splitext imgName).2.length := by
    have := congrArg String.length (splitext_append imgName)
    rw [String.length_append] at this
    omega
  have hne0 : ∀ (k : Nat), 0 < k → candName imgName 0 ≠ candName imgName k := by
    intro k hk h
    have h1 := congrArg String.length h
    rw [candName, candName, if_pos rfl, if_neg (by omega)] at h1
    simp only [String.length_append] at h1
    have := repr_length_pos k
    have h2 : (toString k).length = (Nat.repr k).length := rfl
    omega
  intro j k h
  match j, k with
  | 0, 0 => rfl
  | 0, k + 1 => exact absurd h (hne0 (k + 1) (by omega))
  | j + 1, 0 => exact absurd h.symm (hne0 (j + 1) (by omega))
  | j + 1, k + 1 =>
    rw [candName, candName, if_neg (by omega), if_neg (by omega)] at h
    have hd := congrArg String.data h
    simp only [String.data_append] at hd
    have hd2 := List.append_cancel_right hd
    have hd3 := List.append_cancel_left hd2
    exact natRepr_data_injective (j + 1) (k + 1) hd3

theorem searchFreeFrom_none :
    ∀ (fuel k : Nat) (existing : List String) (imgName : String),
      searchFreeFrom existing imgName fuel k = none →
      ∀ j, k ≤ j → j < k + fuel → candName imgName j ∈ existing
  | 0, k, existing, imgName, _ => fun j hj1 hj2 => absurd hj2 (by omega)
  | fuel + 1, k, existing, imgName, h => by
    rw [searchFreeFrom] at h
    by_cases hc : candName imgName k ∈ existing
    · rw [if_pos hc] at h
      intro j hj1 hj2
      by_cases hjk : j = k
      · subst hjk
        exact hc
      · exact searchFreeFrom_none fuel (k + 1) existing imgName h j (by omega) (by omega)
    · rw [if_neg hc] at h
      cases h

theorem resolveDstName_isSome (existing : List String) (imgName : String) :
    (resolveDstName existing imgName).isSome = true := by
  unfold resolveDstName
  cases hs : searchFreeFrom existing imgName (existing.length + 2) 0 with
  | some k => rfl
  | none =>
    exfalso
    have hall : ∀ j, j < existing.length + 2 → candName imgName j ∈ existing :=
      fun j hj => searchFreeFrom_none _ _ _ _ hs j (Nat.zero_le j) (by omega)
    have hsub : ((List.range (existing.length + 2)).map (candName imgName)).toFinset ⊆
        existing.toFinset := by
      intro x hx
      rw [List.mem_toFinset] at hx
      obtain ⟨j, hj, rfl⟩ := List.mem_map.mp hx
      rw [List.mem_toFinset]
      exact hall j (List.mem_range.mp hj)
    have hnd : ((List.range (existing.length + 2)).map (candName imgName)).Nodup := by
      refine List.Nodup.map_on ?_ (List.nodup_range _)
      intro j _ k _ hjk
      exact candName_injective imgName j k hjk
    have h1 : ((List.range (existing.length + 2)).map (candName imgName)).toFinset.card =
        existing.length + 2 := by
      rw [List.toFinset_card_of_nodup hnd]
      simp
    have h2 := Finset.card_le_card hsub
    have h3 := existing.toFinset_card_le
    omega

/-- C7: a successfully resolved destination is the first free candidate in the
sequence starting at new_ plus the filename and continuing with
new_stem_k.ext for k = 1, 2, ...; resolution always succeeds (candidate names
are pairwise distinct, so some candidate is free among any finite set of
existing files); concretely, img.jpg with new_img.jpg occupied resolves to
new_img_1.jpg, whose label destination is new_img_1.txt. -/
theorem resolve_dst_spec (existing : List String) (imgName r : String)
    (h : resolveDstName existing imgName = some r) :
    (∃ k, r = candName imgName k ∧ r ∉ existing ∧
        ∀ j, j < k → candName imgName j ∈ existing) ∧
    candName imgName 0 = "new_" ++ imgName ∧
    (∀ k, 1 ≤ k → candName imgName k =
        "new_" ++ (splitext imgName).1 ++ "_" ++ toString k ++ (splitext imgName).2) ∧
    (∀ (ex : List String) (nm : String), (resolveDstName ex nm).isSome = true) ∧
    resolveDstName ["new_img.jpg"] "img.jpg" = some "new_img_1.jpg" ∧
    dstLabelName "new_img_1.jpg" = "new_img_1.txt" := by
  refine ⟨?_, rfl, ?_, resolveDstName_isSome, by decide, by decide⟩
  · unfold resolveDstName at h
    cases hs : searchFreeFrom existing imgName (existing.length + 2) 0 with
    | none =>
      rw [hs] at h
      exact absurd h (by simp)
    | some k =>
      rw [hs] at h
      simp only [Option.map_some', Option.some.injEq] at h
      obtain ⟨h1, -, h3⟩ := searchFreeFrom_spec _ _ _ _ _ hs
      subst h
      exact ⟨k, rfl, h1, fun j hj => h3 j (Nat.zero_le j) hj⟩
  · intro k hk
    unfold candName
    rw [if_neg (by omega)]

/-- Witness for C7: with new_img.jpg occupied, the resolved name new_img_1.jpg is
some candidate, is free, and every earlier candidate is occupied. -/
theorem resolve_dst_spec_witness :
    ∃ k, "new_img_1.jpg" = candName "img.jpg" k ∧
      "new_img_1.jpg" ∉ (["new_img.jpg"] : List String) ∧
      ∀ j, j < k → candName "img.jpg" j ∈ (["new_img.jpg"] : List String) :=
  (resolve_dst_spec ["new_img.jpg"] "img.jpg" "new_img_1.jpg" (by decide)).1

/-- C5 amended: every successfully resolved destination name is absent from the
files existing on disk at resolution time, so no planned destination collides
with a pre-existing file. -/
theorem resolved_dst_fresh (existing : List String) (imgName r : String)
    (h : resolveDstName existing imgName = some r) : r ∉ existing := by
  unfold resolveDstName at h
  cases hs : searchFreeFrom existing imgName (existing.length + 2) 0 with
  | none =>
    rw [hs] at h
    exact absurd h (by simp)
  | some k =>
    rw [hs] at h
    simp only [Option.map_some', Option.some.injEq] at h
    subst h
    exact (searchFreeFrom_spec _ _ _ _ _ hs).1

/-- Witness for C5 amended: the concrete resolved destination new_img_1.jpg is
not among the pre-existing files. -/
theorem resolved_dst_fresh_witness :
    "new_img_1.jpg" ∉ (["new_img.jpg"] : List String) :=
  resolved_dst_fresh ["new_img.jpg"] "img.jpg" "new_img_1.jpg" (by decide)

theorem ensureDir_effects_mkdir (st : FsState) (d : String) (e : FsEffect)
    (he : e ∈ (ensureDir st d).2) : ∃ d0, e = FsEffect.mkdir d0 := by
  unfold ensureDir at he
  by_cases h : d ∈ st.dirs
  · rw [if_pos h] at he
    exact absurd he (by simp)
  · rw [if_neg h] at he
    rcases List.mem_singleton.mp he with rfl
    exact ⟨d, rfl⟩

theorem foldl_planningStep_mkdirs :
    ∀ (subs : List String) (acc : FsState × List FsEffect),
      (∀ e ∈ acc.2, ∃ d, e = FsEffect.mkdir d) →
      ∀ e ∈ (subs.foldl planningStep acc).2, ∃ d, e = FsEffect.mkdir d
  | [], acc, hacc => hacc
  | sub :: rest, acc, hacc => by
    rw [List.foldl_cons]
    apply foldl_planningStep_mkdirs rest (planningStep acc sub)
    intro e he
    unfold planningStep at he
    by_cases h : ("new/" ++ sub ++ "/images") ∈ acc.1.dirs
    · rw [if_pos h] at he
      simp only [List.mem_append] at he
      rcases he with (he | he) | he
      · exact hacc e he
      · exact ensureDir_effects_mkdir _ _ e he
      · exact ensureDir_effects_mkdir _ _ e he
    · rw [if_neg h] at he
      exact hacc e he

/-- C1 amended: a dry run creates no file, writes no file and copies no file:
every filesystem effect it performs is a directory creation (the planning loop
creates missing destination images and labels directories for each incoming
split before the dry-run early return). -/
theorem dry_run_only_mkdirs (st : FsState) (e : FsEffect) (he : e ∈ dryRunEffects st) :
    ∃ d, e = FsEffect.mkdir d := by
  unfold dryRunEffects at he
  by_cases h : "data.yaml" ∈ st.files ∧ "new" ∈ st.dirs
  · rw [if_pos h] at he
    exact foldl_planningStep_mkdirs subsetNames (st, []) (by simp) e he
  · rw [if_neg h] at he
    exact absurd he (by simp)

/-- Witness for C1 amended: the first effect of a concrete dry run is some
mkdir. -/
theorem dry_run_only_mkdirs_witness :
    ∃ d, FsEffect.mkdir "train/images" = FsEffect.mkdir d :=
  dry_run_only_mkdirs ⟨["new", "new/train/images"], ["data.yaml"]⟩
    (FsEffect.mkdir "train/images") (by decide)

/-- C1 counterexample: on a dataset state where the incoming train split exists
but the destination train directories do not, the dry run performs two mkdir
mutations, refuting the zero-filesystem-mutation claim for planning. -/
theorem dry_run_mutates_dirs :
    dryRunEffects ⟨["new", "new/train/images"], ["data.yaml"]⟩ =
      [FsEffect.mkdir "train/images", FsEffect.mkdir "train/labels"] ∧
    dryRunEffects ⟨["new", "new/train/images"], ["data.yaml"]⟩ ≠ [] :=
  ⟨by decide, by decide⟩

/-- C5 counterexample: with new_img.jpg already on disk, incoming img.jpg and
img_1.jpg both resolve to new_img_1.jpg, so two planned operations in the same
run share a destination path: the planning loop checks only the disk, never the
already planned names. -/
theorem dest_collision_possible :
    planDestinations ["new_img.jpg"] ["img.jpg", "img_1.jpg"] =
      [some "new_img_1.jpg", some "new_img_1.jpg"] ∧
    ¬ (planDestinations ["new_img.jpg"] ["img.jpg", "img_1.jpg"]).Nodup :=
  ⟨by decide, by decide⟩

example : (fallbackWriteCfg [("path", CfgVal.str "x"), ("nc", CfgVal.nat 1)] ["cat"]).lookup
    "path" = none := by decide

theorem dictSet_lookup_ne :
    ∀ (cfg : List (String × CfgVal)) (k2 : String) (v : CfgVal) (k : String), k ≠ k2 →
      (dictSet cfg k2 v).lookup k = cfg.lookup k
  | [], k2, v, k, hne => by
    simp [dictSet, List.lookup, beq_eq_false_iff_ne.mpr hne]
  | (a, b) :: rest, k2, v, k, hne => by
    by_cases ha : a = k2
    · subst ha
      have hk : (k == a) = false := beq_eq_false_iff_ne.mpr hne
      simp [dictSet, List.lookup, hk]
    · have IH := dictSet_lookup_ne rest k2 v k hne
      by_cases hk : k = a
      · subst hk
        simp [dictSet, ha, List.lookup]
      · simp [dictSet, ha, List.lookup, beq_eq_false_iff_ne.mpr hk, IH]

theorem dictSet_lookup_eq :
    ∀ (cfg : List (String × CfgVal)) (k2 : String) (v : CfgVal),
      (dictSet cfg k2 v).lookup k2 = some v
  | [], k2, v => by simp [dictSet, List.lookup]
  | (a, b) :: rest, k2, v => by
    by_cases ha : a = k2
    · subst ha
      simp [dictSet, List.lookup]
    · have IH := dictSet_lookup_eq rest k2 v
      simp [dictSet, ha, List.lookup,
        beq_eq_false_iff_ne.mpr (fun hk => ha hk.symm), IH]

theorem lookup_eq_none_of_keys (k : String) :
    ∀ (l : List (String × CfgVal)), (∀ p ∈ l, p.1 ≠ k) → l.lookup k = none
  | [], _ => rfl
  | (a, b) :: rest, h => by
    have ha : a ≠ k := h (a, b) (List.mem_cons_self _ _)
    have hb : (k == a) = false := beq_eq_false_iff_ne.mpr (fun hk => ha hk.symm)
    simp only [List.lookup, hb]
    exact lookup_eq_none_of_keys k rest (fun p hp => h p (List.mem_cons_of_mem _ hp))

theorem lookup_append_left_none (k : String) :
    ∀ (l1 l2 : List (String × CfgVal)), l1.lookup k = none →
      (l1 ++ l2).lookup k = l2.lookup k
  | [], l2, _ => rfl
  | (a, b) :: rest, l2, h => by
    by_cases hk : (k == a) = true
    · simp [List.lookup, hk] at h
    · rw [Bool.not_eq_true] at hk
      simp only [List.lookup, hk] at h
      simp only [List.cons_append, List.lookup, hk]
      exact lookup_append_left_none k rest l2 h

theorem fallback_pre_keys (cfg : List (String × CfgVal)) (p : String × CfgVal)
    (hp : p ∈ ((["train", "val", "test"] : List String).filterMap
      (fun k => (cfg.lookup k).map (fun v => (k, v))))) :
    p.1 = "train" ∨ p.1 = "val" ∨ p.1 = "test" := by
  obtain ⟨a, ha, hfa⟩ := List.mem_filterMap.mp hp
  cases hv : cfg.lookup a with
  | none =>
    rw [hv] at hfa
    exact absurd hfa (by simp)
  | some v =>
    rw [hv] at hfa
    simp only [Option.map_some', Option.some.injEq] at hfa
    subst hfa
    simpa using ha

/-- C9 amended: the yaml-library rewrite sets nc to the merged class count and
names to the merged list while preserving every other key of the loaded mapping;
the fallback writer also sets nc and names correctly but emits only the train,
val and test keys besides them, dropping any other key of the loaded mapping. -/
theorem yaml_update_preserves_keys :
    (∀ (cfg : List (String × CfgVal)) (merged : List String) (k : String),
        k ≠ "nc" → k ≠ "names" →
        (updateMainCfg cfg merged).lookup k = cfg.lookup k) ∧
    (∀ (cfg : List (String × CfgVal)) (merged : List String),
        (updateMainCfg cfg merged).lookup "nc" = some (CfgVal.nat merged.length) ∧
        (updateMainCfg cfg merged).lookup "names" = some (CfgVal.names merged)) ∧
    (∀ (cfg : List (String × CfgVal)) (merged : List String),
        (fallbackWriteCfg cfg merged).lookup "nc" = some (CfgVal.nat merged.length) ∧
        (fallbackWriteCfg cfg merged).lookup "names" = some (CfgVal.names merged)) ∧
    (∀ (cfg : List (String × CfgVal)) (merged : List String) (p : String × CfgVal),
        p ∈ fallbackWriteCfg cfg merged →
        p.1 = "train" ∨ p.1 = "val" ∨ p.1 = "test" ∨ p.1 = "nc" ∨ p.1 = "names") := by
  refine ⟨?_, ?_, ?_, ?_⟩
  · intro cfg merged k hnc hnames
    unfold updateMainCfg
    rw [dictSet_lookup_ne _ _ _ _ hnames, dictSet_lookup_ne _ _ _ _ hnc]
  · intro cfg merged
    unfold updateMainCfg
    refine ⟨?_, dictSet_lookup_eq _ _ _⟩
    rw [dictSet_lookup_ne _ _ _ _ (by decide), dictSet_lookup_eq]
  · intro cfg merged
    unfold fallbackWriteCfg
    constructor
    · rw [lookup_append_left_none _ _ _ (lookup_eq_none_of_keys _ _ ?_)]
      · simp [List.lookup]
      · intro p hp
        rcases fallback_pre_keys cfg p hp with h | h | h <;> simp [h]
    · rw [lookup_append_left_none _ _ _ (lookup_eq_none_of_keys _ _ ?_)]
      · simp [List.lookup]
      · intro p hp
        rcases fallback_pre_keys cfg p hp with h | h | h <;> simp [h]
  · intro cfg merged p hp
    unfold fallbackWriteCfg at hp
    rcases List.mem_append.mp hp with hp | hp
    · rcases fallback_pre_keys cfg p hp with h | h | h
      · exact Or.inl h
      · exact Or.inr (Or.inl h)
      · exact Or.inr (Or.inr (Or.inl h))
    · rcases List.mem_cons.mp hp with rfl | hp
      · exact Or.inr (Or.inr (Or.inr (Or.inl rfl)))
      · rcases List.mem_singleton.mp hp with rfl
        exact Or.inr (Or.inr (Or.inr (Or.inr rfl)))

/-- Witness for C9 amended: a concrete path key survives the yaml-library
rewrite unchanged. -/
theorem yaml_update_preserves_keys_witness :
    (updateMainCfg [("path", CfgVal.str "x"), ("nc", CfgVal.nat 1)] ["cat"]).lookup "path" =
      ([("path", CfgVal.str "x"), ("nc", CfgVal.nat 1)] :
        List (String × CfgVal)).lookup "path" :=
  yaml_update_preserves_keys.1 [("path", CfgVal.str "x"), ("nc", CfgVal.nat 1)] ["cat"]
    "path" (by decide) (by decide)

/-- C9 counterexample: a loaded descriptor carrying a path key keeps it under the
claim, but the fallback writer emits no path key at all, refuting preservation
for the fallback writer path. -/
theorem fallback_write_drops_key :
    (([("path", CfgVal.str "x"), ("nc", CfgVal.nat 1), ("names", CfgVal.names ["cat"])] :
        List (String × CfgVal)).lookup "path" = some (CfgVal.str "x")) ∧
    (fallbackWriteCfg [("path", CfgVal.str "x"), ("nc", CfgVal.nat 1),
        ("names", CfgVal.names ["cat"])] ["cat"]).lookup "path" = none :=
  ⟨by decide, by decide⟩

example : planRemapLines (buildRemapTable ["cat", "dog"] ["dog", "bird"]) 3
    ["0 0.5 0.5 0.1 0.1"] = (["1 0.5 0.5 0.1 0.1"], []) := by decide

example : planRemapLines (buildRemapTable ["cat"] []) 1 ["7 0.5 0.5 0.1 0.1"] =
    ([], ["Warning: cannot map class id 7"]) := by decide

example : applyRemapLines (buildRemapTable ["cat"] []) ["7 0.5 0.5 0.1 0.1"] =
    some ["7 0.5 0.5 0.1 0.1"] := by decide

example : applyRemapLines [] ["x 0.5 0.5 0.1 0.1"] = none := by decide

example : planRemapLines (buildRemapTable ["cat"] []) 1 ["-1 0.5 0.5 0.1 0.1"] =
    (["-1 0.5 0.5 0.1 0.1"], []) := by decide
